import Mathlib

/-!
Verification of clean_identical_files.py (repository cli-tools-py).

The program walks a directory, buckets image files by byte size, groups
byte-identical files within each bucket, and moves all but one member of
each group of duplicates into a target directory.

Shallow embedding: the filesystem is a finite association list from paths
to byte contents plus a list of existing directories.  Python sets of
paths are modelled as lists without duplicates; set.pop, whose choice of
element is arbitrary in Python, is determinised to the head of the list
(every general theorem below is independent of that choice).  Calls into
the OS (os.walk, os.path.exists, shutil.move, os.makedirs) are modelled
as pure functions on the filesystem state; shutil.move failures caused by
the environment (permissions and the like) are modelled by a failSet
parameter listing the paths whose move raises, mirroring the per-file
try/except of move_file_list.  Exceptions are modelled with Except.
-/

set_option maxHeartbeats 1000000

namespace CleanIdentical

/-- File paths, as plain strings (Python passes paths around as str). -/
abbrev FPath := String

/-- File contents as a list of bytes. -/
abbrev Content := List Nat

/-- Filesystem state: files as an association list from path to content,
plus the set of existing directories. -/
structure FS where
  files : List (FPath × Content)
  dirs : List FPath
deriving DecidableEq, Repr

/-- Model of os.path.exists: true if the path names an existing file or
an existing directory. -/
def FS.pathExists (fs : FS) (p : FPath) : Bool :=
  (fs.files.lookup p).isSome || fs.dirs.contains p

/-- Model of Python str.endswith: suffix test on the character sequence. -/
def strEndsWith (s suffix : FPath) : Bool :=
  suffix.data.isSuffixOf s.data

/-- Model of the prefix test used to delimit the walked directory tree. -/
def strStartsWith (s pre : FPath) : Bool :=
  pre.data.isPrefixOf s.data

/-- Model of Python string comparison (code-point lexicographic), as used
by sorted on str values. -/
def charListLt : List Char → List Char → Bool
  | [], [] => false
  | [], _ :: _ => true
  | _ :: _, [] => false
  | x :: xs, y :: ys =>
    if x.toNat < y.toNat then true
    else if y.toNat < x.toNat then false
    else charListLt xs ys

/-- Lexicographic less-than on paths, matching Python str comparison. -/
def strLt (a b : FPath) : Bool :=
  charListLt a.data b.data

/-- Model of the extension filter on line 55 of clean_identical_files.py:
entry.endswith for each of the four allowed extensions, case-sensitive. -/
def hasAllowedExt (p : FPath) : Bool :=
  strEndsWith p ".arw" || strEndsWith p ".nef" || strEndsWith p ".jpg" || strEndsWith p ".tif"

/-- Model of the os.walk loop of define_files_map (lines 52-54): the full
paths of all files under the given directory.  When the root directory
does not exist (or is unreadable) os.walk, whose default onerror is None,
silently yields nothing, so the walk returns the empty list. -/
def osWalkFiles (fs : FS) (directory : FPath) : List FPath :=
  if fs.dirs.contains directory then
    (fs.files.map Prod.fst).filter (fun p => strStartsWith p (directory ++ "/"))
  else []

/-- Model of Path(entry).stat().st_size (line 34): the length of the file
content; files handed to it by define_files_map always exist. -/
def fsSize (fs : FS) (p : FPath) : Nat :=
  ((fs.files.lookup p).getD []).length

/-- Insertion into the size map (lines 40-43): add the path to the entry
of its size key, creating the entry when absent. -/
def map_insert (sz : Nat) (p : FPath) : List (Nat × List FPath) → List (Nat × List FPath)
  | [] => [(sz, [p])]
  | (k, ps) :: rest =>
    if k = sz then (k, ps ++ [p]) :: rest else (k, ps) :: map_insert sz p rest

/-- Embedding of add_photo_into_map_by_filesize (lines 32-43), str branch:
stat the entry and insert it under its size. -/
def add_photo_into_map_by_filesize (fs : FS) (base_names : List (Nat × List FPath)) (entry : FPath) : List (Nat × List FPath) :=
  map_insert (fsSize fs entry) entry base_names

/-- Embedding of define_files_map (lines 46-57): walk the directory, keep
the entries whose path ends with an allowed extension, and bucket them by
file size. -/
def define_files_map (fs : FS) (directory : FPath) : List (Nat × List FPath) :=
  ((osWalkFiles fs directory).filter hasAllowedExt).foldl (add_photo_into_map_by_filesize fs) []

/-- Embedding of filecmp.cmp(p, q, shallow=False) (line 73): true exactly
when both files exist and their byte contents are equal; raises (here:
Except.error) when either file is missing, as os.stat does on a vanished
file. -/
def filecmp_cmp (fs : FS) (p q : FPath) : Except String Bool :=
  match fs.files.lookup p, fs.files.lookup q with
  | some c1, some c2 => .ok (c1 == c2)
  | _, _ => .error "FileNotFoundError"

/-- Embedding of the comparison loop of group_equal_files (lines 72-74):
collect the candidates identical to the selected file; an exception from
the comparator aborts the loop and propagates. -/
def collect_identical (cmp : FPath → FPath → Except String Bool) (selected : FPath) : List FPath → Except String (List FPath)
  | [] => .ok []
  | q :: qs =>
    match cmp selected q with
    | .error e => .error e
    | .ok b =>
      match collect_identical cmp selected qs with
      | .error e => .error e
      | .ok rest => .ok (if b then q :: rest else rest)

/-- Embedding of group_equal_files (lines 60-75): on the empty set return
the empty set; otherwise pop one element (set.pop is arbitrary in Python,
determinised here to the head) and return it together with every remaining
element whose content comparison against it succeeds. -/
def group_equal_files (cmp : FPath → FPath → Except String Bool) (photo_set : List FPath) : Except String (List FPath) :=
  match photo_set with
  | [] => .ok []
  | selected :: rest =>
    match collect_identical cmp selected rest with
    | .error e => .error e
    | .ok g => .ok (selected :: g)

/-- One formulation of the while loop of group_all_identical_photos
(lines 83-86), structurally recursive on a fuel bound: repeatedly take
the group of files identical to the popped seed and remove it from the
working set.  The popped seed always belongs to the returned group, so
removing the group from the tail of the list is the same as removing it
from the whole list. -/
def group_bucket_go (cmp : FPath → FPath → Except String Bool) : Nat → List FPath → Except String (List (List FPath))
  | _, [] => .ok []
  | 0, _ :: _ => .ok []
  | fuel + 1, selected :: rest =>
    match group_equal_files cmp (selected :: rest) with
    | .error e => .error e
    | .ok g =>
      match group_bucket_go cmp fuel (rest.filter (fun q => !g.contains q)) with
      | .error e => .error e
      | .ok gs => .ok (g :: gs)

/-- Embedding of the while loop of group_all_identical_photos (lines
83-86), entered with fuel equal to the size of the working set: every
pass removes at least the popped seed from the working set, so the fuel
is never exhausted (the theorems below are proved under that bound and
never rely on the fuel-out branch). -/
def group_bucket_loop (cmp : FPath → FPath → Except String Bool) (ps : List FPath) : Except String (List (List FPath)) :=
  group_bucket_go cmp ps.length ps

/-- Embedding of group_all_identical_photos (lines 78-87): run the bucket
loop over every size key of the map. -/
def group_all_identical_photos (cmp : FPath → FPath → Except String Bool) : List (Nat × List FPath) → Except String (List (Nat × List (List FPath)))
  | [] => .ok []
  | (k, ps) :: rest =>
    match group_bucket_loop cmp ps with
    | .error e => .error e
    | .ok gs =>
      match group_all_identical_photos cmp rest with
      | .error e => .error e
      | .ok m => .ok ((k, gs) :: m)

/-- Characters after the last slash, accumulating the current segment. -/
def basenameChars : List Char → List Char → List Char
  | [], acc => acc.reverse
  | c :: cs, acc => if c = '/' then basenameChars cs [] else basenameChars cs (c :: acc)

/-- Model of os.path.basename: the part of the path after the last slash. -/
def basename (p : FPath) : FPath :=
  String.mk (basenameChars p.data [])

/-- Model of shutil.move(f, destDir) (line 98) with destDir an existing
directory: the file is removed from its source path and written at
destDir joined with its basename, overwriting a previous entry at the
destination; none models the exception raised when the source is missing
or the file is not movable. -/
def shutil_move (fs : FS) (f : FPath) (destDir : FPath) : Option FS :=
  match fs.files.lookup f with
  | some c =>
    some { fs with files :=
      ((fs.files.filter (fun pc => pc.1 != f)).filter
        (fun pc => pc.1 != destDir ++ "/" ++ basename f)) ++ [(destDir ++ "/" ++ basename f, c)] }
  | none => none

/-- Embedding of move_file_list (lines 90-102).  For each file: when it no
longer exists it is skipped; when it exists the counter is incremented
first, then (outside dry-run) the move is attempted, any exception being
caught and logged (lines 100-101).  failSet lists the paths whose
shutil.move raises for environmental reasons. -/
def move_file_list (failSet : List FPath) (fs : FS) (files_to_be_moved : List FPath) (destination : FPath) (num_files_moved : Nat) (dry_run : Bool) : FS × Nat :=
  match files_to_be_moved with
  | [] => (fs, num_files_moved)
  | f :: rest =>
    if fs.pathExists f then
      if dry_run then
        move_file_list failSet fs rest destination (num_files_moved + 1) dry_run
      else if failSet.contains f then
        move_file_list failSet fs rest destination (num_files_moved + 1) dry_run
      else
        match shutil_move fs f destination with
        | some fs1 => move_file_list failSet fs1 rest destination (num_files_moved + 1) dry_run
        | none => move_file_list failSet fs rest destination (num_files_moved + 1) dry_run
    else
      move_file_list failSet fs rest destination num_files_moved dry_run

/-- Insertion step of the model of sorted(s, reverse=True) (line 114):
keep the list in descending lexicographic order of the full path strings,
which is exactly the order Python sorted produces with reverse=True. -/
def insertDesc (x : FPath) : List FPath → List FPath
  | [] => [x]
  | y :: ys => if strLt x y then y :: insertDesc x ys else x :: y :: ys

/-- Model of sorted(s, reverse=True) (line 114) by insertion sort; on
distinct strings it agrees with any correct sort. -/
def sortedDesc (l : List FPath) : List FPath :=
  l.foldr insertDesc []

/-- Embedding of exclude_one_image_to_not_delete_it (lines 120-121):
list.pop() removes the last element of the descending-sorted list, that
is the lexicographically smallest path; the remainder is the move set. -/
def exclude_one_image_to_not_delete_it (identical_photos_sorted : List FPath) : List FPath :=
  identical_photos_sorted.dropLast

/-- Model of lines 107-108 of move_identical_files: os.makedirs(target)
when os.path.exists(target) is false. -/
def makedirs_if_absent (fs : FS) (target : FPath) : FS :=
  if fs.pathExists target then fs else { fs with dirs := fs.dirs ++ [target] }

/-- Inner loop of move_identical_files (lines 111-116) over the groups of
one size key: groups with more than one member are sorted descending, one
file is excluded, and the rest are handed to move_file_list, threading the
filesystem and the counter. -/
def move_groups (failSet : List FPath) (target : FPath) (dry_run : Bool) : List (List FPath) → FS → Nat → FS × Nat
  | [], fs, n => (fs, n)
  | g :: gs, fs, n =>
    if g.length > 1 then
      move_groups failSet target dry_run gs
        (move_file_list failSet fs (exclude_one_image_to_not_delete_it (sortedDesc g)) target n dry_run).1
        (move_file_list failSet fs (exclude_one_image_to_not_delete_it (sortedDesc g)) target n dry_run).2
    else
      move_groups failSet target dry_run gs fs n

/-- Outer loop of move_identical_files (line 110) over the size keys. -/
def move_buckets (failSet : List FPath) (target : FPath) (dry_run : Bool) : List (Nat × List (List FPath)) → FS → Nat → FS × Nat
  | [], fs, n => (fs, n)
  | kv :: rest, fs, n =>
    move_buckets failSet target dry_run rest
      (move_groups failSet target dry_run kv.2 fs n).1
      (move_groups failSet target dry_run kv.2 fs n).2

/-- Embedding of move_identical_files (lines 105-117): create the target
directory when absent (unconditionally, before looking at any group and
regardless of dry_run), then process every group of every size key. -/
def move_identical_files (failSet : List FPath) (fs : FS) (identical_photos_dict : List (Nat × List (List FPath))) (target_directory : FPath) (dry_run : Bool) : FS × Nat :=
  move_buckets failSet target_directory dry_run identical_photos_dict (makedirs_if_absent fs target_directory) 0

/-- Embedding of clean_identical_files (lines 124-135): build the size
map, group identical photos (a comparison exception propagates), move the
duplicates, log the count, and fall off the end of the function — Python
then returns None, modelled by the final Option Nat component, while the
Nat component is the logged num_files_duplicated. -/
def clean_identical_files (failSet : List FPath) (fs : FS) (directory target_directory : FPath) (dry_run : Bool) : Except String (FS × Nat × Option Nat) :=
  match group_all_identical_photos (filecmp_cmp fs) (define_files_map fs directory) with
  | .error e => .error e
  | .ok identical_photos =>
    let r := move_identical_files failSet fs identical_photos target_directory dry_run
    .ok (r.1, r.2, none)

/-- Embedding of the __main__ block (lines 168-174): sys.exit on the value
returned by clean_identical_files — sys.exit(None) exits with status 0,
sys.exit(n) with n modulo 256 — and sys.exit(1) when an exception reaches
the top-level handler. -/
def main_exit_code (failSet : List FPath) (fs : FS) (directory target_directory : FPath) (dry_run : Bool) : Nat :=
  match clean_identical_files failSet fs directory target_directory dry_run with
  | .ok (_, _, none) => 0
  | .ok (_, _, some n) => n % 256
  | .error _ => 1

/-- Number of paths of the list that exist in the filesystem; used to
state what move_file_list counts. -/
def countExists (fs : FS) (l : List FPath) : Nat :=
  (l.filter (fun f => fs.pathExists f)).length

/-- Count of moves the relocation loop reports for a list of groups when
the filesystem stays at fs: for each group with more than one member, the
existing members of its move set. -/
def plannedCount (fs : FS) (gs : List (List FPath)) : Nat :=
  (gs.map (fun g => if g.length > 1 then countExists fs (exclude_one_image_to_not_delete_it (sortedDesc g)) else 0)).sum

/-- plannedCount summed over every size key of the dictionary. -/
def plannedCountBuckets (fs : FS) (dict : List (Nat × List (List FPath))) : Nat :=
  (dict.map (fun kv => plannedCount fs kv.2)).sum

/-- Every path appearing in any group of any size key of the dictionary. -/
def allPaths (dict : List (Nat × List (List FPath))) : List FPath :=
  (dict.map (fun kv => kv.2.flatten)).flatten

/-! Basic list facts used throughout. -/

theorem mem_of_contains {l : List FPath} {x : FPath} (h : l.contains x = true) : x ∈ l := by
  simpa using h

theorem contains_of_mem {l : List FPath} {x : FPath} (h : x ∈ l) : l.contains x = true := by
  simpa using h

theorem lookup_isSome_of_mem_map_fst {l : List (FPath × Content)} {p : FPath} (h : p ∈ l.map Prod.fst) : (l.lookup p).isSome = true := by
  induction l with
  | nil => simp at h
  | cons a tl ih =>
    obtain ⟨k, c⟩ := a
    by_cases hpk : p = k
    · subst hpk
      simp [List.lookup]
    · have hbeq : (p == k) = false := beq_eq_false_iff_ne.mpr hpk
      rw [List.map_cons, List.mem_cons] at h
      rcases h with h | h
      · exact absurd h hpk
      · simp only [List.lookup, hbeq]
        exact ih h

/-! Lemmas about the comparison loop of the Duplicate Grouper. -/

theorem collect_identical_sound {cmp : FPath → FPath → Except String Bool} {s : FPath} {l g : List FPath} (h : collect_identical cmp s l = .ok g) : ∀ x ∈ g, x ∈ l ∧ cmp s x = .ok true := by
  induction l generalizing g with
  | nil =>
    simp [collect_identical] at h
    subst h
    intro x hx
    simp at hx
  | cons q qs ih =>
    intro x hx
    rw [collect_identical] at h
    cases hcq : cmp s q with
    | error e => rw [hcq] at h; exact absurd h (by simp)
    | ok b =>
      rw [hcq] at h
      cases hrec : collect_identical cmp s qs with
      | error e => rw [hrec] at h; exact absurd h (by simp)
      | ok rest =>
        rw [hrec] at h
        simp at h
        subst h
        by_cases hb : b = true
        · subst hb
          simp at hx
          rcases hx with hx | hx
          · subst hx; exact ⟨List.mem_cons_self _ _, hcq⟩
          · rcases ih hrec x hx with ⟨h1, h2⟩
            exact ⟨List.mem_cons_of_mem q h1, h2⟩
        · rw [Bool.eq_false_iff.mpr hb] at hx
          simp at hx
          rcases ih hrec x hx with ⟨h1, h2⟩
          exact ⟨List.mem_cons_of_mem q h1, h2⟩

theorem collect_identical_complete {cmp : FPath → FPath → Except String Bool} {s : FPath} {l g : List FPath} (h : collect_identical cmp s l = .ok g) : ∀ x ∈ l, cmp s x = .ok true → x ∈ g := by
  induction l generalizing g with
  | nil => intro x hx; simp at hx
  | cons q qs ih =>
    intro x hx hcmp
    rw [collect_identical] at h
    cases hcq : cmp s q with
    | error e => rw [hcq] at h; exact absurd h (by simp)
    | ok b =>
      rw [hcq] at h
      cases hrec : collect_identical cmp s qs with
      | error e => rw [hrec] at h; exact absurd h (by simp)
      | ok rest =>
        rw [hrec] at h
        simp at h
        subst h
        rcases List.mem_cons.mp hx with rfl | hx
        · have hb : b = true := by
            rw [hcq] at hcmp
            exact (Except.ok.injEq _ _).mp hcmp.symm |>.symm ▸ by
              cases hcmp' : b <;> simp_all
          subst hb
          simp
        · have hxr := ih hrec x hx hcmp
          cases b <;> simp [hxr]

theorem group_equal_files_ok_shape {cmp : FPath → FPath → Except String Bool} {s : FPath} {rest g : List FPath} (h : group_equal_files cmp (s :: rest) = .ok g) : ∃ g0, g = s :: g0 ∧ collect_identical cmp s rest = .ok g0 := by
  rw [group_equal_files] at h
  cases hc : collect_identical cmp s rest with
  | error e => rw [hc] at h; exact absurd h (by simp)
  | ok g0 =>
    rw [hc] at h
    simp at h
    exact ⟨g0, h.symm, rfl⟩

theorem group_bucket_go_partition (cmp : FPath → FPath → Except String Bool) : ∀ fuel ps gs, ps.length ≤ fuel → group_bucket_go cmp fuel ps = .ok gs → (∀ x, x ∈ gs.flatten ↔ x ∈ ps) ∧ gs.Pairwise (fun g1 g2 => ∀ x, x ∈ g1 → x ∉ g2) := by
  intro fuel
  induction fuel with
  | zero =>
    intro ps gs hle h
    have hps : ps = [] := List.length_eq_zero.mp (Nat.le_zero.mp hle)
    subst hps
    simp [group_bucket_go] at h
    subst h
    simp
  | succ fuel ih =>
    intro ps gs hle h
    cases ps with
    | nil =>
      simp [group_bucket_go] at h
      subst h
      simp
    | cons s rest =>
      rw [group_bucket_go] at h
      cases hg : group_equal_files cmp (s :: rest) with
      | error e => rw [hg] at h; exact absurd h (by simp)
      | ok g =>
        rw [hg] at h
        simp only [] at h
        cases hrec : group_bucket_go cmp fuel (rest.filter (fun q => !g.contains q)) with
        | error e => rw [hrec] at h; exact absurd h (by simp)
        | ok gs2 =>
          rw [hrec] at h
          simp at h
          subst h
          have hlen : (rest.filter (fun q => !g.contains q)).length ≤ fuel :=
            le_trans (List.length_filter_le _ _) (Nat.succ_le_succ_iff.mp (by simpa using hle))
          obtain ⟨hiff, hpw⟩ := ih _ _ hlen hrec
          obtain ⟨g0, rfl, hcoll⟩ := group_equal_files_ok_shape hg
          constructor
          · intro x
            simp only [List.flatten_cons, List.mem_append]
            constructor
            · rintro (hx | hx)
              · rcases List.mem_cons.mp hx with rfl | hx
                · exact List.mem_cons_self _ _
                · exact List.mem_cons_of_mem _ (collect_identical_sound hcoll x hx).1
              · exact List.mem_cons_of_mem _ (List.mem_of_mem_filter ((hiff x).mp hx))
            · intro hx
              rcases List.mem_cons.mp hx with rfl | hx
              · exact Or.inl (List.mem_cons_self _ _)
              · by_cases hxg : x ∈ s :: g0
                · exact Or.inl hxg
                · refine Or.inr ((hiff x).mpr (List.mem_filter.mpr ⟨hx, ?_⟩))
                  simpa using hxg
          · refine List.Pairwise.cons ?_ hpw
            intro g2 hg2 x hx hxg2
            have hxf : x ∈ gs2.flatten := List.mem_flatten.mpr ⟨g2, hg2, hxg2⟩
            have hmem := (hiff x).mp hxf
            have hnc := (List.mem_filter.mp hmem).2
            simp at hnc
            rcases List.mem_cons.mp hx with rfl | hx0
            · exact hnc.1 rfl
            · exact hnc.2 hx0

theorem group_bucket_go_groups (cmp : FPath → FPath → Except String Bool) : ∀ fuel ps gs g, ps.length ≤ fuel → group_bucket_go cmp fuel ps = .ok gs → g ∈ gs → ∃ s g0, g = s :: g0 ∧ s ∈ ps ∧ ∀ x ∈ g0, x ∈ ps ∧ cmp s x = .ok true := by
  intro fuel
  induction fuel with
  | zero =>
    intro ps gs g hle h hgm
    have hps : ps = [] := List.length_eq_zero.mp (Nat.le_zero.mp hle)
    subst hps
    simp [group_bucket_go] at h
    subst h
    simp at hgm
  | succ fuel ih =>
    intro ps gs g hle h hgm
    cases ps with
    | nil =>
      simp [group_bucket_go] at h
      subst h
      simp at hgm
    | cons s rest =>
      rw [group_bucket_go] at h
      cases hg : group_equal_files cmp (s :: rest) with
      | error e => rw [hg] at h; exact absurd h (by simp)
      | ok g1 =>
        rw [hg] at h
        simp only [] at h
        cases hrec : group_bucket_go cmp fuel (rest.filter (fun q => !g1.contains q)) with
        | error e => rw [hrec] at h; exact absurd h (by simp)
        | ok gs2 =>
          rw [hrec] at h
          simp at h
          subst h
          rcases List.mem_cons.mp hgm with rfl | hgm
          · obtain ⟨g0, rfl, hcoll⟩ := group_equal_files_ok_shape hg
            refine ⟨s, g0, rfl, List.mem_cons_self _ _, ?_⟩
            intro x hx
            have := collect_identical_sound hcoll x hx
            exact ⟨List.mem_cons_of_mem _ this.1, this.2⟩
          · have hlen : (rest.filter (fun q => !g1.contains q)).length ≤ fuel :=
              le_trans (List.length_filter_le _ _) (Nat.succ_le_succ_iff.mp (by simpa using hle))
            obtain ⟨s2, g0, rfl, hs2, hmem⟩ := ih _ _ _ hlen hrec hgm
            refine ⟨s2, g0, rfl, List.mem_cons_of_mem _ (List.mem_of_mem_filter hs2), ?_⟩
            intro x hx
            obtain ⟨hx1, hx2⟩ := hmem x hx
            exact ⟨List.mem_cons_of_mem _ (List.mem_of_mem_filter hx1), hx2⟩

theorem group_all_ok_entries {cmp : FPath → FPath → Except String Bool} : ∀ {m : List (Nat × List FPath)} {res}, group_all_identical_photos cmp m = .ok res → ∀ k gs, (k, gs) ∈ res → ∃ ps, (k, ps) ∈ m ∧ group_bucket_loop cmp ps = .ok gs := by
  intro m
  induction m with
  | nil =>
    intro res h k gs hmem
    simp [group_all_identical_photos] at h
    subst h
    simp at hmem
  | cons kv rest ih =>
    intro res h k gs hmem
    obtain ⟨k1, ps1⟩ := kv
    rw [group_all_identical_photos] at h
    cases hb : group_bucket_loop cmp ps1 with
    | error e => rw [hb] at h; exact absurd h (by simp)
    | ok gs1 =>
      rw [hb] at h
      simp only [] at h
      cases hrec : group_all_identical_photos cmp rest with
      | error e => rw [hrec] at h; exact absurd h (by simp)
      | ok res2 =>
        rw [hrec] at h
        simp at h
        subst h
        rcases List.mem_cons.mp hmem with heq | hmem
        · obtain ⟨rfl, rfl⟩ := Prod.mk.inj heq
          exact ⟨ps1, List.mem_cons_self _ _, hb⟩
        · obtain ⟨ps, hps, hloop⟩ := ih hrec k gs hmem
          exact ⟨ps, List.mem_cons_of_mem _ hps, hloop⟩

/-! Lemmas about the Inventory Builder. -/

theorem mem_map_insert_elim {m : List (Nat × List FPath)} {sz : Nat} {p : FPath} {k : Nat} {ps : List FPath} {x : FPath} (h : (k, ps) ∈ map_insert sz p m) (hx : x ∈ ps) : (∃ ps0, (k, ps0) ∈ m ∧ x ∈ ps0) ∨ x = p := by
  induction m generalizing ps with
  | nil =>
    simp [map_insert] at h
    obtain ⟨rfl, rfl⟩ := h
    simp at hx
    exact Or.inr hx
  | cons kv rest ih =>
    obtain ⟨k1, ps1⟩ := kv
    rw [map_insert] at h
    by_cases hk : k1 = sz
    · rw [if_pos hk] at h
      rcases List.mem_cons.mp h with heq | hmem
      · obtain ⟨rfl, rfl⟩ := Prod.mk.inj heq
        rcases List.mem_append.mp hx with hx | hx
        · exact Or.inl ⟨ps1, List.mem_cons_self _ _, hx⟩
        · simp at hx
          exact Or.inr hx
      · exact Or.inl ⟨ps, List.mem_cons_of_mem _ hmem, hx⟩
    · rw [if_neg hk] at h
      rcases List.mem_cons.mp h with heq | hmem
      · obtain ⟨rfl, rfl⟩ := Prod.mk.inj heq
        exact Or.inl ⟨ps, List.mem_cons_self _ _, hx⟩
      · rcases ih hmem hx with ⟨ps0, hps0, hx0⟩ | hxp
        · exact Or.inl ⟨ps0, List.mem_cons_of_mem _ hps0, hx0⟩
        · exact Or.inr hxp

theorem mem_map_insert_self (m : List (Nat × List FPath)) (sz : Nat) (p : FPath) : ∃ ps, (sz, ps) ∈ map_insert sz p m ∧ p ∈ ps := by
  induction m with
  | nil => exact ⟨[p], by simp [map_insert], by simp⟩
  | cons kv rest ih =>
    obtain ⟨k1, ps1⟩ := kv
    rw [map_insert]
    by_cases hk : k1 = sz
    · subst hk
      exact ⟨ps1 ++ [p], by simp, by simp⟩
    · obtain ⟨ps, hps, hp⟩ := ih
      exact ⟨ps, by rw [if_neg hk]; exact List.mem_cons_of_mem _ hps, hp⟩

theorem mem_map_insert_preserve {m : List (Nat × List FPath)} {k : Nat} {ps : List FPath} {x : FPath} (h : (k, ps) ∈ m) (hx : x ∈ ps) (sz : Nat) (p : FPath) : ∃ ps2, (k, ps2) ∈ map_insert sz p m ∧ x ∈ ps2 := by
  induction m generalizing ps with
  | nil => simp at h
  | cons kv rest ih =>
    obtain ⟨k1, ps1⟩ := kv
    rw [map_insert]
    by_cases hk : k1 = sz
    · rw [if_pos hk]
      rcases List.mem_cons.mp h with heq | hmem
      · obtain ⟨rfl, rfl⟩ := Prod.mk.inj heq
        exact ⟨ps ++ [p], List.mem_cons_self _ _, List.mem_append_left _ hx⟩
      · exact ⟨ps, List.mem_cons_of_mem _ hmem, hx⟩
    · rw [if_neg hk]
      rcases List.mem_cons.mp h with heq | hmem
      · obtain ⟨rfl, rfl⟩ := Prod.mk.inj heq
        exact ⟨ps, List.mem_cons_self _ _, hx⟩
      · obtain ⟨ps2, hps2, hx2⟩ := ih hmem hx
        exact ⟨ps2, List.mem_cons_of_mem _ hps2, hx2⟩

theorem foldl_add_mem_elim (fs : FS) : ∀ (l : List FPath) (m0 : List (Nat × List FPath)) {k : Nat} {ps : List FPath} {x : FPath}, (k, ps) ∈ l.foldl (add_photo_into_map_by_filesize fs) m0 → x ∈ ps → (∃ ps0, (k, ps0) ∈ m0 ∧ x ∈ ps0) ∨ x ∈ l := by
  intro l
  induction l with
  | nil =>
    intro m0 k ps x h hx
    exact Or.inl ⟨ps, h, hx⟩
  | cons y ys ih =>
    intro m0 k ps x h hx
    rw [List.foldl_cons] at h
    rcases ih _ h hx with hin | hys
    · obtain ⟨ps0, hps0, hx0⟩ := hin
      rcases mem_map_insert_elim hps0 hx0 with ⟨ps1, hps1, hx1⟩ | hxy
      · exact Or.inl ⟨ps1, hps1, hx1⟩
      · exact Or.inr (by simp [hxy])
    · exact Or.inr (List.mem_cons_of_mem _ hys)

theorem foldl_add_preserve (fs : FS) : ∀ (l : List FPath) (m0 : List (Nat × List FPath)) {k : Nat} {ps : List FPath} {x : FPath}, (k, ps) ∈ m0 → x ∈ ps → ∃ ps2, (k, ps2) ∈ l.foldl (add_photo_into_map_by_filesize fs) m0 ∧ x ∈ ps2 := by
  intro l
  induction l with
  | nil =>
    intro m0 k ps x h hx
    exact ⟨ps, h, hx⟩
  | cons y ys ih =>
    intro m0 k ps x h hx
    rw [List.foldl_cons]
    obtain ⟨ps1, hps1, hx1⟩ := mem_map_insert_preserve h hx (fsSize fs y) y
    exact ih _ hps1 hx1

theorem foldl_add_self (fs : FS) : ∀ (l : List FPath) (m0 : List (Nat × List FPath)) {x : FPath}, x ∈ l → ∃ ps, (fsSize fs x, ps) ∈ l.foldl (add_photo_into_map_by_filesize fs) m0 ∧ x ∈ ps := by
  intro l
  induction l with
  | nil => intro m0 x h; simp at h
  | cons y ys ih =>
    intro m0 x h
    rw [List.foldl_cons]
    rcases List.mem_cons.mp h with rfl | hys
    · obtain ⟨ps, hps, hp⟩ := mem_map_insert_self m0 (fsSize fs x) x
      exact foldl_add_preserve fs ys _ hps hp
    · exact ih _ hys

theorem define_files_map_mem_walk {fs : FS} {dir : FPath} {k : Nat} {ps : List FPath} {p : FPath} (h : (k, ps) ∈ define_files_map fs dir) (hp : p ∈ ps) : p ∈ (osWalkFiles fs dir).filter hasAllowedExt := by
  rcases foldl_add_mem_elim fs _ _ h hp with ⟨ps0, hps0, _⟩ | hmem
  · simp at hps0
  · exact hmem

theorem walk_lookup_isSome {fs : FS} {dir : FPath} {p : FPath} (h : p ∈ osWalkFiles fs dir) : (fs.files.lookup p).isSome = true := by
  rw [osWalkFiles] at h
  by_cases hd : fs.dirs.contains dir
  · rw [if_pos hd] at h
    exact lookup_isSome_of_mem_map_fst (List.mem_of_mem_filter h)
  · rw [if_neg hd] at h
    simp at h

/-! Lemmas about the Relocation Executor. -/

theorem lookup_filter_ne (l : List (FPath × Content)) (a k : FPath) (h : k ≠ a) : ((l.filter (fun pc => pc.1 != a)).lookup k) = l.lookup k := by
  induction l with
  | nil => simp
  | cons pc rest ih =>
    obtain ⟨p1, c1⟩ := pc
    rw [List.filter_cons]
    by_cases hpa : p1 = a
    · subst hpa
      simp only [bne_self_eq_false]
      rw [if_neg (by simp)]
      rw [ih]
      simp [List.lookup, show (k == p1) = false from beq_eq_false_iff_ne.mpr h]
    · rw [if_pos (by simpa using bne_iff_ne.mpr hpa)]
      by_cases hkp : k = p1
      · subst hkp
        simp [List.lookup]
      · simp [List.lookup, show (k == p1) = false from beq_eq_false_iff_ne.mpr hkp, ih]

theorem lookup_append_right_single (l : List (FPath × Content)) (d k : FPath) (c : Content) (h : k ≠ d) : ((l ++ [(d, c)]).lookup k) = l.lookup k := by
  induction l with
  | nil => simp [List.lookup, show (k == d) = false from beq_eq_false_iff_ne.mpr h]
  | cons pc rest ih =>
    obtain ⟨p1, c1⟩ := pc
    by_cases hkp : k = p1
    · subst hkp
      simp [List.lookup]
    · simp [List.lookup, show (k == p1) = false from beq_eq_false_iff_ne.mpr hkp, ih]

theorem shutil_move_some_dirs {fs fs2 : FS} {f dest : FPath} (h : shutil_move fs f dest = some fs2) : fs2.dirs = fs.dirs := by
  rw [shutil_move] at h
  cases hl : fs.files.lookup f with
  | none => rw [hl] at h; simp at h
  | some c =>
    rw [hl] at h
    simp at h
    subst h
    rfl

theorem shutil_move_some_lookup {fs fs2 : FS} {f dest : FPath} (h : shutil_move fs f dest = some fs2) {q : FPath} (hqf : q ≠ f) (hqd : q ≠ dest ++ "/" ++ basename f) : fs2.files.lookup q = fs.files.lookup q := by
  rw [shutil_move] at h
  cases hl : fs.files.lookup f with
  | none => rw [hl] at h; simp at h
  | some c =>
    rw [hl] at h
    have h2 := Option.some.inj h
    subst h2
    simp only []
    rw [lookup_append_right_single _ _ _ _ hqd]
    rw [lookup_filter_ne _ _ _ hqd]
    rw [lookup_filter_ne _ _ _ hqf]

theorem pathExists_eq_of {fs1 fs2 : FS} {q : FPath} (h1 : fs1.files.lookup q = fs2.files.lookup q) (h2 : fs1.dirs = fs2.dirs) : fs1.pathExists q = fs2.pathExists q := by
  simp [FS.pathExists, h1, h2]

theorem countExists_nil (fs : FS) : countExists fs [] = 0 := rfl

theorem countExists_cons (fs : FS) (f : FPath) (l : List FPath) : countExists fs (f :: l) = (if fs.pathExists f then 1 else 0) + countExists fs l := by
  by_cases h : fs.pathExists f
  · simp [countExists, List.filter_cons, h, Nat.add_comm]
  · simp [countExists, List.filter_cons, h]

theorem countExists_congr {fs1 fs2 : FS} {l : List FPath} (h : ∀ f ∈ l, fs1.pathExists f = fs2.pathExists f) : countExists fs1 l = countExists fs2 l := by
  induction l with
  | nil => rfl
  | cons f rest ih =>
    rw [countExists_cons, countExists_cons]
    rw [h f (List.mem_cons_self _ _)]
    rw [ih (fun g hg => h g (List.mem_cons_of_mem _ hg))]

theorem move_file_list_dry (failSet : List FPath) (fs : FS) (dest : FPath) : ∀ (files : List FPath) (n : Nat), move_file_list failSet fs files dest n true = (fs, n + countExists fs files) := by
  intro files
  induction files with
  | nil => intro n; simp [move_file_list, countExists_nil]
  | cons f rest ih =>
    intro n
    rw [move_file_list, countExists_cons]
    by_cases h : fs.pathExists f
    · rw [if_pos h, if_pos rfl, ih, if_pos h]
      ring_nf
    · rw [if_neg h, ih, if_neg h]
      simp

theorem move_file_list_dirs (failSet : List FPath) (dest : FPath) (dry : Bool) : ∀ (files : List FPath) (fs : FS) (n : Nat), ((move_file_list failSet fs files dest n dry).1).dirs = fs.dirs := by
  intro files
  induction files with
  | nil => intro fs n; rfl
  | cons f rest ih =>
    intro fs n
    rw [move_file_list]
    by_cases h : fs.pathExists f
    · rw [if_pos h]
      by_cases hd : dry = true
      · rw [if_pos hd]; exact ih fs _
      · rw [if_neg hd]
        by_cases hf : failSet.contains f = true
        · rw [if_pos hf]; exact ih fs _
        · rw [if_neg hf]
          cases hm : shutil_move fs f dest with
          | none => exact ih fs _
          | some fs1 => rw [ih fs1 _]; exact shutil_move_some_dirs hm
    · rw [if_neg h]; exact ih fs _

theorem move_file_list_wet (failSet : List FPath) (dest : FPath) : ∀ (files : List FPath) (fs : FS) (n : Nat), files.Nodup → (∀ p ∈ files, ∀ q ∈ files, dest ++ "/" ++ basename p ≠ q) → (move_file_list failSet fs files dest n false).2 = n + countExists fs files ∧ ∀ q, q ∉ files → (∀ p ∈ files, q ≠ dest ++ "/" ++ basename p) → ((move_file_list failSet fs files dest n false).1).files.lookup q = fs.files.lookup q := by
  intro files
  induction files with
  | nil =>
    intro fs n _ _
    exact ⟨by simp [move_file_list, countExists_nil], fun q _ _ => rfl⟩
  | cons f rest ih =>
    intro fs n hN hD
    have hN2 : rest.Nodup := hN.of_cons
    have hfr : f ∉ rest := by
      intro hc
      exact (List.nodup_cons.mp hN).1 hc
    have hD2 : ∀ p ∈ rest, ∀ q ∈ rest, dest ++ "/" ++ basename p ≠ q :=
      fun p hp q hq => hD p (List.mem_cons_of_mem _ hp) q (List.mem_cons_of_mem _ hq)
    rw [move_file_list]
    by_cases h : fs.pathExists f
    · rw [if_pos h, if_neg (by simp)]
      by_cases hf : failSet.contains f = true
      · rw [if_pos hf]
        obtain ⟨hc, hl⟩ := ih fs (n + 1) hN2 hD2
        refine ⟨?_, ?_⟩
        · rw [hc, countExists_cons, if_pos h]
          ring_nf
        · intro q hq hqd
          exact hl q (fun hc2 => hq (List.mem_cons_of_mem _ hc2)) (fun p hp => hqd p (List.mem_cons_of_mem _ hp))
      · rw [if_neg hf]
        cases hm : shutil_move fs f dest with
        | none =>
          obtain ⟨hc, hl⟩ := ih fs (n + 1) hN2 hD2
          refine ⟨?_, ?_⟩
          · rw [hc, countExists_cons, if_pos h]
            ring_nf
          · intro q hq hqd
            exact hl q (fun hc2 => hq (List.mem_cons_of_mem _ hc2)) (fun p hp => hqd p (List.mem_cons_of_mem _ hp))
        | some fs1 =>
          obtain ⟨hc, hl⟩ := ih fs1 (n + 1) hN2 hD2
          have hpe : ∀ g ∈ rest, fs1.pathExists g = fs.pathExists g := by
            intro g hg
            refine pathExists_eq_of ?_ (shutil_move_some_dirs hm)
            refine shutil_move_some_lookup hm ?_ ?_
            · intro hgf; exact hfr (hgf ▸ hg)
            · exact (hD f (List.mem_cons_self _ _) g (List.mem_cons_of_mem _ hg)).symm
          refine ⟨?_, ?_⟩
          · rw [hc, countExists_congr hpe, countExists_cons, if_pos h]
            ring_nf
          · intro q hq hqd
            rw [hl q (fun hc2 => hq (List.mem_cons_of_mem _ hc2)) (fun p hp => hqd p (List.mem_cons_of_mem _ hp))]
            refine shutil_move_some_lookup hm ?_ ?_
            · intro hqf; exact hq (hqf ▸ List.mem_cons_self _ _)
            · exact hqd f (List.mem_cons_self _ _)
    · rw [if_neg h]
      obtain ⟨hc, hl⟩ := ih fs n hN2 hD2
      refine ⟨?_, ?_⟩
      · rw [hc, countExists_cons, if_neg h]
        simp
      · intro q hq hqd
        exact hl q (fun hc2 => hq (List.mem_cons_of_mem _ hc2)) (fun p hp => hqd p (List.mem_cons_of_mem _ hp))

theorem insertDesc_perm (x : FPath) : ∀ l : List FPath, (insertDesc x l).Perm (x :: l) := by
  intro l
  induction l with
  | nil => exact List.Perm.refl _
  | cons y ys ih =>
    rw [insertDesc]
    by_cases h : strLt x y
    · rw [if_pos h]
      exact (ih.cons y).trans (List.Perm.swap x y ys)
    · rw [if_neg h]

theorem sortedDesc_perm : ∀ l : List FPath, (sortedDesc l).Perm l := by
  intro l
  induction l with
  | nil => exact List.Perm.refl _
  | cons y ys ih =>
    have hstep : sortedDesc (y :: ys) = insertDesc y (sortedDesc ys) := rfl
    rw [hstep]
    exact (insertDesc_perm y _).trans (ih.cons y)

theorem mem_cands {g : List FPath} {x : FPath} (h : x ∈ exclude_one_image_to_not_delete_it (sortedDesc g)) : x ∈ g := by
  have h1 : x ∈ sortedDesc g := (List.dropLast_sublist _).subset h
  exact (sortedDesc_perm g).subset h1

theorem cands_nodup {g : List FPath} (h : g.Nodup) : (exclude_one_image_to_not_delete_it (sortedDesc g)).Nodup := by
  have h1 : (sortedDesc g).Nodup := ((sortedDesc_perm g).nodup_iff).mpr h
  exact h1.sublist (List.dropLast_sublist _)

theorem plannedCount_nil (fs : FS) : plannedCount fs [] = 0 := rfl

theorem plannedCount_cons (fs : FS) (g : List FPath) (gs : List (List FPath)) : plannedCount fs (g :: gs) = (if g.length > 1 then countExists fs (exclude_one_image_to_not_delete_it (sortedDesc g)) else 0) + plannedCount fs gs := by
  simp [plannedCount]

theorem plannedCount_congr {fs1 fs2 : FS} : ∀ {gs : List (List FPath)}, (∀ x ∈ gs.flatten, fs1.pathExists x = fs2.pathExists x) → plannedCount fs1 gs = plannedCount fs2 gs := by
  intro gs
  induction gs with
  | nil => intro _; rfl
  | cons g rest ih =>
    intro h
    rw [plannedCount_cons, plannedCount_cons]
    have h1 : ∀ x ∈ g, fs1.pathExists x = fs2.pathExists x := by
      intro x hx
      exact h x (by simp [List.flatten_cons, hx])
    have h2 : ∀ x ∈ rest.flatten, fs1.pathExists x = fs2.pathExists x := by
      intro x hx
      exact h x (by simp [List.flatten_cons, hx])
    rw [ih h2]
    by_cases hlen : g.length > 1
    · rw [if_pos hlen, if_pos hlen, countExists_congr (fun f hf => h1 f (mem_cands hf))]
    · rw [if_neg hlen, if_neg hlen]

theorem move_groups_dry (failSet : List FPath) (target : FPath) : ∀ (gs : List (List FPath)) (fs : FS) (n : Nat), move_groups failSet target true gs fs n = (fs, n + plannedCount fs gs) := by
  intro gs
  induction gs with
  | nil => intro fs n; simp [move_groups, plannedCount_nil]
  | cons g rest ih =>
    intro fs n
    rw [move_groups]
    by_cases hlen : g.length > 1
    · rw [if_pos hlen, move_file_list_dry]
      refine (ih fs (n + countExists fs (exclude_one_image_to_not_delete_it (sortedDesc g)))).trans ?_
      rw [plannedCount_cons, if_pos hlen, Nat.add_assoc]
    · rw [if_neg hlen, ih, plannedCount_cons, if_neg hlen, Nat.zero_add]

theorem move_groups_dirs (failSet : List FPath) (target : FPath) (dry : Bool) : ∀ (gs : List (List FPath)) (fs : FS) (n : Nat), ((move_groups failSet target dry gs fs n).1).dirs = fs.dirs := by
  intro gs
  induction gs with
  | nil => intro fs n; rfl
  | cons g rest ih =>
    intro fs n
    rw [move_groups]
    by_cases hlen : g.length > 1
    · rw [if_pos hlen, ih]
      exact move_file_list_dirs _ _ _ _ _ _
    · rw [if_neg hlen]
      exact ih fs n

theorem move_groups_wet (failSet : List FPath) (target : FPath) : ∀ (gs : List (List FPath)) (fs : FS) (n : Nat), gs.flatten.Nodup → (∀ p ∈ gs.flatten, ∀ q ∈ gs.flatten, target ++ "/" ++ basename p ≠ q) → (move_groups failSet target false gs fs n).2 = n + plannedCount fs gs ∧ ∀ q, q ∉ gs.flatten → (∀ p ∈ gs.flatten, q ≠ target ++ "/" ++ basename p) → ((move_groups failSet target false gs fs n).1).files.lookup q = fs.files.lookup q := by
  intro gs
  induction gs with
  | nil =>
    intro fs n _ _
    exact ⟨by simp [move_groups, plannedCount_nil], fun q _ _ => rfl⟩
  | cons g rest ih =>
    intro fs n hN hD
    have hflat : (g :: rest).flatten = g ++ rest.flatten := by simp
    rw [hflat] at hN hD
    obtain ⟨hgN, hrN, hdisj⟩ := List.nodup_append.mp hN
    have hDrest : ∀ p ∈ rest.flatten, ∀ q ∈ rest.flatten, target ++ "/" ++ basename p ≠ q :=
      fun p hp q hq => hD p (List.mem_append_right _ hp) q (List.mem_append_right _ hq)
    rw [move_groups]
    by_cases hlen : g.length > 1
    · rw [if_pos hlen]
      have hsubc : ∀ x ∈ exclude_one_image_to_not_delete_it (sortedDesc g), x ∈ g := fun x hx => mem_cands hx
      have hNc : (exclude_one_image_to_not_delete_it (sortedDesc g)).Nodup := cands_nodup hgN
      have hDc : ∀ p ∈ exclude_one_image_to_not_delete_it (sortedDesc g), ∀ q ∈ exclude_one_image_to_not_delete_it (sortedDesc g), target ++ "/" ++ basename p ≠ q :=
        fun p hp q hq => hD p (List.mem_append_left _ (hsubc p hp)) q (List.mem_append_left _ (hsubc q hq))
      obtain ⟨hc1, hl1⟩ := move_file_list_wet failSet target (exclude_one_image_to_not_delete_it (sortedDesc g)) fs n hNc hDc
      obtain ⟨hc2, hl2⟩ := ih (move_file_list failSet fs (exclude_one_image_to_not_delete_it (sortedDesc g)) target n false).1 (move_file_list failSet fs (exclude_one_image_to_not_delete_it (sortedDesc g)) target n false).2 hrN hDrest
      have hpe : ∀ x ∈ rest.flatten, ((move_file_list failSet fs (exclude_one_image_to_not_delete_it (sortedDesc g)) target n false).1).pathExists x = fs.pathExists x := by
        intro x hx
        refine pathExists_eq_of ?_ (move_file_list_dirs _ _ _ _ _ _)
        refine hl1 x ?_ ?_
        · intro hxc
          exact hdisj (hsubc x hxc) hx
        · intro p hp
          exact ((hD p (List.mem_append_left _ (hsubc p hp)) x (List.mem_append_right _ hx))).symm
      refine ⟨?_, ?_⟩
      · rw [hc2, hc1, plannedCount_congr hpe, plannedCount_cons, if_pos hlen, Nat.add_assoc]
      · intro q hq hqd
        have hqrest : q ∉ rest.flatten := fun hc => hq (List.mem_append_right _ hc)
        have hqdrest : ∀ p ∈ rest.flatten, q ≠ target ++ "/" ++ basename p :=
          fun p hp => hqd p (List.mem_append_right _ hp)
        rw [hl2 q hqrest hqdrest]
        refine hl1 q ?_ ?_
        · intro hqc
          exact hq (List.mem_append_left _ (hsubc q hqc))
        · intro p hp
          exact hqd p (List.mem_append_left _ (hsubc p hp))
    · rw [if_neg hlen]
      obtain ⟨hc2, hl2⟩ := ih fs n hrN hDrest
      refine ⟨?_, ?_⟩
      · rw [hc2, plannedCount_cons, if_neg hlen, Nat.zero_add]
      · intro q hq hqd
        exact hl2 q (fun hc => hq (List.mem_append_right _ hc)) (fun p hp => hqd p (List.mem_append_right _ hp))

theorem allPaths_nil : allPaths [] = [] := rfl

theorem allPaths_cons (kv : Nat × List (List FPath)) (rest : List (Nat × List (List FPath))) : allPaths (kv :: rest) = kv.2.flatten ++ allPaths rest := by
  simp [allPaths]

theorem plannedCountBuckets_nil (fs : FS) : plannedCountBuckets fs [] = 0 := rfl

theorem plannedCountBuckets_cons (fs : FS) (kv : Nat × List (List FPath)) (rest : List (Nat × List (List FPath))) : plannedCountBuckets fs (kv :: rest) = plannedCount fs kv.2 + plannedCountBuckets fs rest := by
  simp [plannedCountBuckets]

theorem plannedCountBuckets_congr {fs1 fs2 : FS} : ∀ {dict : List (Nat × List (List FPath))}, (∀ x ∈ allPaths dict, fs1.pathExists x = fs2.pathExists x) → plannedCountBuckets fs1 dict = plannedCountBuckets fs2 dict := by
  intro dict
  induction dict with
  | nil => intro _; rfl
  | cons kv rest ih =>
    intro h
    rw [plannedCountBuckets_cons, plannedCountBuckets_cons]
    rw [allPaths_cons] at h
    rw [plannedCount_congr (fun x hx => h x (List.mem_append_left _ hx))]
    rw [ih (fun x hx => h x (List.mem_append_right _ hx))]

theorem move_buckets_dry (failSet : List FPath) (target : FPath) : ∀ (dict : List (Nat × List (List FPath))) (fs : FS) (n : Nat), move_buckets failSet target true dict fs n = (fs, n + plannedCountBuckets fs dict) := by
  intro dict
  induction dict with
  | nil => intro fs n; simp [move_buckets, plannedCountBuckets_nil]
  | cons kv rest ih =>
    intro fs n
    rw [move_buckets, move_groups_dry]
    refine (ih fs (n + plannedCount fs kv.2)).trans ?_
    rw [plannedCountBuckets_cons, Nat.add_assoc]

theorem move_buckets_dirs (failSet : List FPath) (target : FPath) (dry : Bool) : ∀ (dict : List (Nat × List (List FPath))) (fs : FS) (n : Nat), ((move_buckets failSet target dry dict fs n).1).dirs = fs.dirs := by
  intro dict
  induction dict with
  | nil => intro fs n; rfl
  | cons kv rest ih =>
    intro fs n
    rw [move_buckets, ih]
    exact move_groups_dirs _ _ _ _ _ _

theorem move_buckets_wet (failSet : List FPath) (target : FPath) : ∀ (dict : List (Nat × List (List FPath))) (fs : FS) (n : Nat), (allPaths dict).Nodup → (∀ p ∈ allPaths dict, ∀ q ∈ allPaths dict, target ++ "/" ++ basename p ≠ q) → (move_buckets failSet target false dict fs n).2 = n + plannedCountBuckets fs dict ∧ ∀ q, q ∉ allPaths dict → (∀ p ∈ allPaths dict, q ≠ target ++ "/" ++ basename p) → ((move_buckets failSet target false dict fs n).1).files.lookup q = fs.files.lookup q := by
  intro dict
  induction dict with
  | nil =>
    intro fs n _ _
    exact ⟨by simp [move_buckets, plannedCountBuckets_nil], fun q _ _ => rfl⟩
  | cons kv rest ih =>
    intro fs n hN hD
    rw [allPaths_cons] at hN hD
    obtain ⟨hgN, hrN, hdisj⟩ := List.nodup_append.mp hN
    have hDrest : ∀ p ∈ allPaths rest, ∀ q ∈ allPaths rest, target ++ "/" ++ basename p ≠ q :=
      fun p hp q hq => hD p (List.mem_append_right _ hp) q (List.mem_append_right _ hq)
    have hDg : ∀ p ∈ kv.2.flatten, ∀ q ∈ kv.2.flatten, target ++ "/" ++ basename p ≠ q :=
      fun p hp q hq => hD p (List.mem_append_left _ hp) q (List.mem_append_left _ hq)
    obtain ⟨hc1, hl1⟩ := move_groups_wet failSet target kv.2 fs n hgN hDg
    rw [move_buckets]
    obtain ⟨hc2, hl2⟩ := ih (move_groups failSet target false kv.2 fs n).1 (move_groups failSet target false kv.2 fs n).2 hrN hDrest
    have hpe : ∀ x ∈ allPaths rest, ((move_groups failSet target false kv.2 fs n).1).pathExists x = fs.pathExists x := by
      intro x hx
      refine pathExists_eq_of ?_ (move_groups_dirs _ _ _ _ _ _)
      refine hl1 x ?_ ?_
      · intro hxc
        exact hdisj hxc hx
      · intro p hp
        exact (hD p (List.mem_append_left _ hp) x (List.mem_append_right _ hx)).symm
    refine ⟨?_, ?_⟩
    · rw [hc2, hc1, plannedCountBuckets_congr hpe, plannedCountBuckets_cons, Nat.add_assoc]
    · intro q hq hqd
      rw [hl2 q (fun hc => hq (List.mem_append_right _ hc)) (fun p hp => hqd p (List.mem_append_right _ hp))]
      refine hl1 q ?_ ?_
      · intro hqc
        exact hq (List.mem_append_left _ hqc)
      · intro p hp
        exact hqd p (List.mem_append_left _ hp)

theorem makedirs_files (fs : FS) (target : FPath) : (makedirs_if_absent fs target).files = fs.files := by
  rw [makedirs_if_absent]
  by_cases h : fs.pathExists target
  · rw [if_pos h]
  · rw [if_neg h]

theorem makedirs_dirs_of_absent {fs : FS} {target : FPath} (h : fs.pathExists target = false) : (makedirs_if_absent fs target).dirs = fs.dirs ++ [target] := by
  rw [makedirs_if_absent, if_neg (by simp [h])]

theorem filecmp_ok_true {fs : FS} {s x : FPath} (h : filecmp_cmp fs s x = .ok true) : ∃ c, fs.files.lookup s = some c ∧ fs.files.lookup x = some c := by
  rw [filecmp_cmp] at h
  cases h1 : fs.files.lookup s with
  | none => rw [h1] at h; simp at h
  | some c1 =>
    cases h2 : fs.files.lookup x with
    | none => rw [h1, h2] at h; simp at h
    | some c2 =>
      rw [h1, h2] at h
      simp at h
      exact ⟨c1, rfl, by rw [h]⟩

/-! The claims. -/

/-- C1: the claim says that in every duplicate group of two or more
members the excluded (kept) member is the one with the longest filename.
The code sorts the full paths in descending lexicographic order and pops
the last element, so the kept member is the lexicographically smallest
path, not the longest-named one; this contradicts the module docstring
(line 6: move the duplicates keeping the one with longest filename).  At
this input the group is the pair d/a.jpg and d/a_copy.jpg with identical
content: the code keeps d/a.jpg and moves d/a_copy.jpg to the target,
although a_copy.jpg is the strictly longer filename and the claim requires
it to be the kept one.  Exactly one member is excluded, but it is the
wrong one. -/
theorem c1_keep_is_lex_least_not_longest : clean_identical_files [] ⟨[("d/a.jpg", [0]), ("d/a_copy.jpg", [0])], ["d"]⟩ "d" "t" false = .ok (⟨[("d/a.jpg", [0]), ("t/a_copy.jpg", [0])], ["d", "t"]⟩, 1, none) ∧ ("a_copy.jpg" : FPath).data.length > ("a.jpg" : FPath).data.length ∧ basename "d/a_copy.jpg" = "a_copy.jpg" ∧ basename "d/a.jpg" = "a.jpg" := by
  refine ⟨rfl, by decide, by decide, by decide⟩

/-- C2: the claim says the process exit code equals the count of files
relocated on success.  In the code clean_identical_files computes the
count but has no return statement, so it returns None and sys.exit(None)
always exits with status 0: at this input one file is relocated (the
logged count is 1) yet the exit code is 0, not 1.  The error half of the
claim (exit 1 on an unhandled exception) does match the code. -/
theorem c2_exit_code_is_zero_not_count : main_exit_code [] ⟨[("d/x.jpg", [1, 2, 3]), ("d/y.jpg", [1, 2, 3])], ["d"]⟩ "d" "t" false = 0 ∧ clean_identical_files [] ⟨[("d/x.jpg", [1, 2, 3]), ("d/y.jpg", [1, 2, 3])], ["d"]⟩ "d" "t" false = .ok (⟨[("d/x.jpg", [1, 2, 3]), ("t/y.jpg", [1, 2, 3])], ["d", "t"]⟩, 1, none) := by
  refine ⟨rfl, rfl⟩

/-- C3: for every size bucket of the map handed to the grouping stage,
the union of the emitted duplicate groups is exactly the bucket member
set and the groups are pairwise disjoint — for any comparator, hence in
particular for the filecmp-based one the program uses. -/
theorem c3_groups_partition_bucket {cmp : FPath → FPath → Except String Bool} {m : List (Nat × List FPath)} {res : List (Nat × List (List FPath))} (h : group_all_identical_photos cmp m = .ok res) : ∀ k gs, (k, gs) ∈ res → ∃ ps, (k, ps) ∈ m ∧ (∀ x, x ∈ gs.flatten ↔ x ∈ ps) ∧ gs.Pairwise (fun g1 g2 => ∀ x, x ∈ g1 → x ∉ g2) := by
  intro k gs hmem
  obtain ⟨ps, hps, hloop⟩ := group_all_ok_entries h k gs hmem
  have hspec := group_bucket_go_partition cmp ps.length ps gs le_rfl hloop
  exact ⟨ps, hps, hspec.1, hspec.2⟩

/-- Witness for C3 at a concrete two-element bucket. -/
theorem c3_witness : ∃ ps, ((1 : Nat), ps) ∈ [((1 : Nat), ["d/a.jpg", "d/b.jpg"])] ∧ (∀ x, x ∈ [["d/a.jpg", "d/b.jpg"]].flatten ↔ x ∈ ps) ∧ [["d/a.jpg", "d/b.jpg"]].Pairwise (fun g1 g2 => ∀ x, x ∈ g1 → x ∉ g2) :=
  @c3_groups_partition_bucket (fun _ _ => .ok true) [(1, ["d/a.jpg", "d/b.jpg"])] [(1, [["d/a.jpg", "d/b.jpg"]])] rfl 1 [["d/a.jpg", "d/b.jpg"]] (by decide)

/-- C4: every duplicate group produced by the grouping stage over the
inventory of a directory has members whose byte contents are pairwise
identical and whose sizes are all equal, although the code only compares
each member against the popped seed: content equality is transitive, and
the seed itself is a walked file, hence present in the filesystem. -/
theorem c4_group_members_identical {fs : FS} {dir : FPath} {res : List (Nat × List (List FPath))} (h : group_all_identical_photos (filecmp_cmp fs) (define_files_map fs dir) = .ok res) : ∀ sz gs g p q, (sz, gs) ∈ res → g ∈ gs → p ∈ g → q ∈ g → (∃ c, fs.files.lookup p = some c ∧ fs.files.lookup q = some c) ∧ fsSize fs p = fsSize fs q := by
  intro sz gs g p q hgs hg hp hq
  obtain ⟨ps, hps, hloop⟩ := group_all_ok_entries h sz gs hgs
  obtain ⟨s, g0, rfl, hs, hmem⟩ := group_bucket_go_groups (filecmp_cmp fs) ps.length ps gs _ le_rfl hloop hg
  have hwalk : s ∈ (osWalkFiles fs dir).filter hasAllowedExt := define_files_map_mem_walk hps hs
  have hssome : (fs.files.lookup s).isSome = true := walk_lookup_isSome (List.mem_of_mem_filter hwalk)
  obtain ⟨cs, hcs⟩ := Option.isSome_iff_exists.mp hssome
  have hlook : ∀ x ∈ s :: g0, fs.files.lookup x = some cs := by
    intro x hx
    rcases List.mem_cons.mp hx with rfl | hx
    · exact hcs
    · obtain ⟨c, hc1, hc2⟩ := filecmp_ok_true (hmem x hx).2
      rw [hc1] at hcs
      rw [hc2, Option.some.inj hcs]
  have hlp := hlook p hp
  have hlq := hlook q hq
  refine ⟨⟨cs, hlp, hlq⟩, ?_⟩
  simp [fsSize, hlp, hlq]

/-- Witness for C4 at a directory holding two identical files. -/
theorem c4_witness : (∃ c, (FS.mk [("d/a.jpg", [5]), ("d/b.jpg", [5])] ["d"]).files.lookup "d/a.jpg" = some c ∧ (FS.mk [("d/a.jpg", [5]), ("d/b.jpg", [5])] ["d"]).files.lookup "d/b.jpg" = some c) ∧ fsSize (FS.mk [("d/a.jpg", [5]), ("d/b.jpg", [5])] ["d"]) "d/a.jpg" = fsSize (FS.mk [("d/a.jpg", [5]), ("d/b.jpg", [5])] ["d"]) "d/b.jpg" :=
  @c4_group_members_identical (FS.mk [("d/a.jpg", [5]), ("d/b.jpg", [5])] ["d"]) "d" [(1, [["d/a.jpg", "d/b.jpg"]])] rfl 1 [["d/a.jpg", "d/b.jpg"]] ["d/a.jpg", "d/b.jpg"] "d/a.jpg" "d/b.jpg" (by decide) (by decide) (by decide) (by decide)

/-- C5: under the stated frame conditions (the paths of the dictionary
are distinct, and no destination path of a move collides with a listed
path), a dry-run relocation pass leaves the files of the filesystem
untouched and reports exactly the count a non-dry-run pass reports over
the same input, whatever set of moves the environment makes fail. -/
theorem c5_dry_run_preserves_files_and_count (failSet : List FPath) (fs : FS) (dict : List (Nat × List (List FPath))) (target : FPath) (hN : (allPaths dict).Nodup) (hD : ∀ p ∈ allPaths dict, ∀ q ∈ allPaths dict, target ++ "/" ++ basename p ≠ q) : ((move_identical_files failSet fs dict target true).1).files = fs.files ∧ (move_identical_files failSet fs dict target true).2 = (move_identical_files failSet fs dict target false).2 := by
  constructor
  · rw [move_identical_files, move_buckets_dry]
    exact makedirs_files fs target
  · rw [move_identical_files, move_identical_files, move_buckets_dry]
    have hw := (move_buckets_wet failSet target dict (makedirs_if_absent fs target) 0 hN hD).1
    rw [hw]

/-- Witness for C5 at a two-element duplicate group. -/
theorem c5_witness : ((move_identical_files [] (FS.mk [("d/a.jpg", [0]), ("d/b.jpg", [0])] ["d"]) [(1, [["d/a.jpg", "d/b.jpg"]])] "t" true).1).files = (FS.mk [("d/a.jpg", [0]), ("d/b.jpg", [0])] ["d"]).files ∧ (move_identical_files [] (FS.mk [("d/a.jpg", [0]), ("d/b.jpg", [0])] ["d"]) [(1, [["d/a.jpg", "d/b.jpg"]])] "t" true).2 = (move_identical_files [] (FS.mk [("d/a.jpg", [0]), ("d/b.jpg", [0])] ["d"]) [(1, [["d/a.jpg", "d/b.jpg"]])] "t" false).2 :=
  c5_dry_run_preserves_files_and_count [] (FS.mk [("d/a.jpg", [0]), ("d/b.jpg", [0])] ["d"]) [(1, [["d/a.jpg", "d/b.jpg"]])] "t" (by decide) (by decide)

/-- C6 counterexample: the claim says a comparison failure is handled
inside the grouping stage and processing continues.  It is not: the
comparison loop of group_equal_files has no exception handler, so when a
listed file has vanished before the comparison the exception escapes the
whole grouping stage instead of being handled there. -/
theorem c6_counterexample : group_all_identical_photos (filecmp_cmp (FS.mk [("d/a.jpg", [0])] ["d"])) [(1, ["d/a.jpg", "d/gone.jpg"])] = .error "FileNotFoundError" := rfl

/-- C6 amended: a content-comparison failure is not handled inside the
grouping stage; the exception propagates out of group_equal_files and
group_all_identical_photos, aborting the grouping (the only handler is
the top-level one of the main block, which exits with code 1). -/
theorem c6_comparison_error_propagates {cmp : FPath → FPath → Except String Bool} (k : Nat) (s q : FPath) (qs : List FPath) (rest : List (Nat × List FPath)) (e : String) (h : cmp s q = .error e) : group_all_identical_photos cmp ((k, s :: q :: qs) :: rest) = .error e := by
  simp [group_all_identical_photos, group_bucket_loop, group_bucket_go, group_equal_files, collect_identical, h]

/-- Witness for the amended C6 at a comparator that raises. -/
theorem c6_witness : group_all_identical_photos (fun _ _ => .error "vanished") [((3 : Nat), ["a", "b"])] = .error "vanished" :=
  c6_comparison_error_propagates 3 "a" "b" [] [] "vanished" rfl

/-- C7: the inventory keeps exactly the walked files whose name ends in
one of .arw, .nef, .jpg, .tif, case-sensitively: every path stored in any
bucket passes the extension filter, and every walked path that passes the
filter is stored in the bucket of its size.  A file of any other
extension is never placed in a bucket, and the grouping stage only ever
compares bucket members, so it is never content-compared. -/
theorem c7_extension_filter (fs : FS) (dir : FPath) : (∀ k ps p, (k, ps) ∈ define_files_map fs dir → p ∈ ps → hasAllowedExt p = true) ∧ (∀ p, p ∈ osWalkFiles fs dir → hasAllowedExt p = true → ∃ ps, (fsSize fs p, ps) ∈ define_files_map fs dir ∧ p ∈ ps) := by
  constructor
  · intro k ps p hk hp
    exact (List.mem_filter.mp (define_files_map_mem_walk hk hp)).2
  · intro p hw ha
    exact foldl_add_self fs _ [] (List.mem_filter.mpr ⟨hw, ha⟩)

/-- Witness for C7: a png file beside a jpg file; the jpg lands in its
size bucket while the png fails the filter. -/
theorem c7_witness : (∃ ps, (fsSize (FS.mk [("d/x.png", [7]), ("d/x.jpg", [7])] ["d"]) "d/x.jpg", ps) ∈ define_files_map (FS.mk [("d/x.png", [7]), ("d/x.jpg", [7])] ["d"]) "d" ∧ "d/x.jpg" ∈ ps) ∧ hasAllowedExt "d/x.png" = false :=
  ⟨(c7_extension_filter (FS.mk [("d/x.png", [7]), ("d/x.jpg", [7])] ["d"]) "d").2 "d/x.jpg" (by decide) (by decide), by decide⟩

/-- C8: the relocation stage creates the target directory whenever it
does not already exist, before looking at any duplicate group and
regardless of the dry-run flag: the quantification covers the empty
dictionary and the dry run. -/
theorem c8_target_directory_created (failSet : List FPath) (fs : FS) (dict : List (Nat × List (List FPath))) (target : FPath) (dry : Bool) (h : fs.pathExists target = false) : target ∈ ((move_identical_files failSet fs dict target dry).1).dirs := by
  rw [move_identical_files, move_buckets_dirs, makedirs_dirs_of_absent h]
  simp

/-- Witness for C8: a dry run over an empty dictionary still creates the
target directory. -/
theorem c8_witness : "t" ∈ ((move_identical_files [] (FS.mk [] []) [] "t" true).1).dirs :=
  c8_target_directory_created [] (FS.mk [] []) [] "t" true (by decide)

/-- C9: in move_file_list a candidate that no longer exists is skipped
without error and not counted, while an existing candidate is counted
before its move is attempted, so the returned count is the number of
existing candidates — independent of which moves the environment makes
fail (failSet is universally quantified) and identical in dry-run and
non-dry-run mode (dry is universally quantified). -/
theorem c9_count_is_existing_candidates (failSet : List FPath) (fs : FS) (files : List FPath) (dest : FPath) (n : Nat) (dry : Bool) (hN : files.Nodup) (hD : ∀ p ∈ files, ∀ q ∈ files, dest ++ "/" ++ basename p ≠ q) : (move_file_list failSet fs files dest n dry).2 = n + countExists fs files := by
  cases dry
  · exact (move_file_list_wet failSet dest files fs n hN hD).1
  · rw [move_file_list_dry]

/-- Witness for C9: one existing candidate whose move fails plus one
vanished candidate; the count is still the number of existing candidates. -/
theorem c9_witness : (move_file_list ["d/a.jpg"] (FS.mk [("d/a.jpg", [0])] ["d"]) ["d/a.jpg", "d/gone.jpg"] "t" 0 false).2 = 0 + countExists (FS.mk [("d/a.jpg", [0])] ["d"]) ["d/a.jpg", "d/gone.jpg"] :=
  c9_count_is_existing_candidates ["d/a.jpg"] (FS.mk [("d/a.jpg", [0])] ["d"]) ["d/a.jpg", "d/gone.jpg"] "t" 0 false (by decide) (by decide)

/-- C10: when the root directory does not exist, os.walk (default
onerror) yields nothing, so the inventory is the empty mapping, the run
completes without error reporting zero duplicated files, and the process
exits 0 — the missing root is not surfaced as an I/O error. -/
theorem c10_missing_root_yields_empty_run (failSet : List FPath) (fs : FS) (root target : FPath) (dry : Bool) (h : fs.dirs.contains root = false) : define_files_map fs root = [] ∧ clean_identical_files failSet fs root target dry = .ok (makedirs_if_absent fs target, 0, none) ∧ main_exit_code failSet fs root target dry = 0 := by
  have hwalk : osWalkFiles fs root = [] := by
    rw [osWalkFiles, if_neg (by simpa using h)]
  have hmap : define_files_map fs root = [] := by
    rw [define_files_map, hwalk]
    rfl
  have hclean : clean_identical_files failSet fs root target dry = .ok (makedirs_if_absent fs target, 0, none) := by
    unfold clean_identical_files
    rw [hmap]
    rfl
  refine ⟨hmap, hclean, ?_⟩
  unfold main_exit_code
  rw [hclean]

/-- Witness for C10: a filesystem whose directory list does not contain
the requested root. -/
theorem c10_witness : define_files_map (FS.mk [("x.jpg", [1])] ["d"]) "nosuch" = [] ∧ clean_identical_files [] (FS.mk [("x.jpg", [1])] ["d"]) "nosuch" "t" false = .ok (makedirs_if_absent (FS.mk [("x.jpg", [1])] ["d"]) "t", 0, none) ∧ main_exit_code [] (FS.mk [("x.jpg", [1])] ["d"]) "nosuch" "t" false = 0 :=
  c10_missing_root_yields_empty_run [] (FS.mk [("x.jpg", [1])] ["d"]) "nosuch" "t" false (by decide)

end CleanIdentical
